import Mathlib

/-!
Shallow embedding of `tensorflow_serving/batching/batching_session.cc` and
proofs about it.

Modelling conventions:
* A tensor is either a rank-0 scalar or a rank-`≥ 1` tensor represented by its
  list of axis-0 rows (all trailing dimensions are flattened into a `Row`).
* `std::set<string>` (the components of a `TensorSignature`) is represented by
  a `List String`; where a theorem needs the set properties it hypothesises
  `Nodup` (and, where relevant, permutation stands for set equality).
* Statuses carry their error class and message; `Status.ok` is success.
* The wrapped session (`wrapped_->Run`) is an arbitrary pure function
  (`Engine`) taking the inputs, output names, target names and the current
  contents of the caller-supplied outputs vector, and returning a status
  together with the new contents of that vector.
* The dispatch table `batch_schedulers_` is abstracted by its lookup
  predicate `table : TensorSignature → Bool`.
* Mutation through the task pointers (`*task->status = ...`,
  `task->done->Notify()`, `task->outputs->push_back(...)`) is modelled by
  explicit state passing on `BatchingSessionTask`, with `doneCount` counting
  `Notify` calls.
-/

/-- A row of a tensor: the flattened content of one axis-0 slice. -/
abbrev Row := List Int

/-- A tensor: either rank 0 (a scalar, `shape().dims() == 0`) or rank `≥ 1`,
represented by its list of axis-0 rows. -/
inductive Tensor where
  | scalar (v : Int)
  | batched (rows : List Row)
deriving DecidableEq, Repr

namespace Tensor

/-- `shape().dims()`, collapsed to `0` vs `1` (only zero-rankness matters). -/
def dims : Tensor → Nat
  | .scalar _ => 0
  | .batched _ => 1

/-- The axis-0 rows of a tensor (a scalar has none). -/
def rows : Tensor → List Row
  | .scalar _ => []
  | .batched rs => rs

/-- `shape().dim_size(0)`. -/
def dim0 (t : Tensor) : Nat := t.rows.length

/-- `Tensor::Slice(lo, hi)`: a zero-copy view of rows `[lo, hi)`. -/
def Slice (t : Tensor) (lo hi : Nat) : Tensor :=
  .batched ((t.rows.drop lo).take (hi - lo))

end Tensor

/-- `tensor::Concat`: concatenation along axis 0. -/
def tensorConcat (ts : List Tensor) : Tensor :=
  .batched (ts.foldr (fun t acc => t.rows ++ acc) [])

/-- Chunking of a row list by a list of sizes (helper for `tensorSplit`). -/
def splitRows (rs : List Row) : List Nat → List (List Row)
  | [] => []
  | n :: ns => rs.take n :: splitRows (rs.drop n) ns

/-- `tensor::Split`: split along axis 0 into `sizes.length` tensors. -/
def tensorSplit (t : Tensor) (sizes : List Nat) : List Tensor :=
  (splitRows t.rows sizes).map Tensor.batched

/-- Status values of `tensorflow::Status`, by error class. -/
inductive Status where
  | ok
  | invalidArgument (msg : String)
  | permissionDenied (msg : String)
  | failedPrecondition (msg : String)
  | internal (msg : String)
  | unknown (msg : String)
deriving DecidableEq, Repr

/-- `TensorSignature`: the two `std::set<string>` components, as lists. -/
structure TensorSignature where
  input_tensors : List String
  output_tensors : List String
deriving DecidableEq, Repr

/-- Ordered insert without duplicates: the effect of `std::set::insert` on the
sorted element sequence. -/
def setInsert (s : List String) (x : String) : List String :=
  match s with
  | [] => [x]
  | y :: ys => if x = y then y :: ys else if x < y then x :: y :: ys else y :: setInsert ys x

/-- `TensorSignatureFromRunArgs`: build the signature of a `Run()` call. -/
def TensorSignatureFromRunArgs (inputs : List (String × Tensor))
    (output_tensor_names : List String) : TensorSignature :=
  { input_tensors := inputs.foldl (fun s p => setInsert s p.1) []
    output_tensors := output_tensor_names.foldl setInsert [] }

/-- Modelled from the spec: `HashCombine` lives in `tensorflow_serving/util/hash.h`,
which is not part of this source tree. The spec describes the combiner as
commutative ("combining per-name hashes under a commutative combiner
(e.g., XOR of per-name hashes with a seed, or sum)"); we model it as XOR. -/
def HashCombine (hash1 hash2 : Nat) : Nat := hash1 ^^^ hash2

/-- `HashTensorSignature::operator()`, parameterised by the per-string hash
`std::hash<string>`. Folds `HashCombine` over the input names and then the
output names, starting from the seed `0xDECAFCAFFE`. -/
def HashTensorSignature (strHash : String → Nat) (signature : TensorSignature) : Nat :=
  let seeded := signature.input_tensors.foldl
    (fun h input_tensor => HashCombine h (strHash input_tensor)) 0xDECAFCAFFE
  signature.output_tensors.foldl
    (fun h output_tensor => HashCombine h (strHash output_tensor)) seeded

/-- `EqTensorSignature::operator()`: componentwise `std::set` equality
(equality of the sorted element sequences). -/
def EqTensorSignature (lhs rhs : TensorSignature) : Bool :=
  lhs.input_tensors == rhs.input_tensors && lhs.output_tensors == rhs.output_tensors

/-- `BatchingSessionTask`, with the storage behind its pointers inlined:
`outputs`/`status` are the caller-side vectors and `doneCount` counts
`done->Notify()` calls. -/
structure BatchingSessionTask where
  zeroth_dim_size : Nat
  inputs : List (String × Tensor)
  output_tensor_names : List String
  outputs : List Tensor
  status : Option Status
  doneCount : Nat
deriving DecidableEq, Repr

/-- `Batch::size()`: the sum of the task sizes (`task.size()` is
`zeroth_dim_size`). -/
def batchSize (batch : List BatchingSessionTask) : Nat :=
  (batch.map (fun t => t.zeroth_dim_size)).sum

/-- `BatchingSessionOptions` (the field the source reads). -/
structure BatchingSessionOptions where
  allowed_batch_sizes : List Nat
deriving DecidableEq, Repr

/-- `BatchingSession::RoundToLowestAllowedBatchSize`. -/
def RoundToLowestAllowedBatchSize (options : BatchingSessionOptions)
    (batch_size : Nat) : Nat :=
  if options.allowed_batch_sizes.isEmpty then batch_size
  else
    match options.allowed_batch_sizes.find? (fun allowed_size => batch_size ≤ allowed_size) with
    | some allowed_size => allowed_size
    | none => batch_size

/-- One step of the loop in `BatchingSession::ComputeInputSize`: `first` is
the first-iteration flag, `size` the value written through the out-param. -/
def computeInputSizeLoop (inputs : List (String × Tensor)) (first : Bool) (size : Nat) :
    Except Status Nat :=
  match inputs with
  | [] => .ok size
  | entry :: rest =>
    let tensor := entry.2
    if tensor.dims = 0 then
      .error (.invalidArgument
        "Batching session Run() input tensors must have at least one dimension")
    else
      let this_size := tensor.dim0
      if first then
        computeInputSizeLoop rest false this_size
      else
        if this_size ≠ size then
          .error (.invalidArgument
            "Batching session Run() input tensors must have equal 0th-dimension size")
        else
          computeInputSizeLoop rest false size

/-- `BatchingSession::ComputeInputSize`. -/
def ComputeInputSize (inputs : List (String × Tensor)) : Except Status Nat :=
  if inputs.length = 0 then
    .error (.invalidArgument "Batching session Run() must have at least one input tensor")
  else
    computeInputSizeLoop inputs true 0

/-- The `tensors_to_merge` map of `MergeInputTensors`:
`std::map<string, std::vector<Tensor>>` as an association list. -/
abbrev MergeMap := List (String × List Tensor)

/-- `tensors_to_merge[tensor_name].push_back(tensor)`. -/
def mergeAdd (m : MergeMap) (name : String) (t : Tensor) : MergeMap :=
  match m with
  | [] => [(name, [t])]
  | p :: rest => if p.1 = name then (p.1, p.2 ++ [t]) :: rest else p :: mergeAdd rest name t

/-- Push a list of tensors one by one onto a key (the padding loop). -/
def mergeAddMany (m : MergeMap) (name : String) (ts : List Tensor) : MergeMap :=
  ts.foldl (fun acc t => mergeAdd acc name t) m

/-- `tensors_to_merge.find(tensor_name)`. -/
def mergeFind : MergeMap → String → Option (List Tensor)
  | [], _ => none
  | p :: rest, name => if p.1 = name then some p.2 else mergeFind rest name

/-- Body of the inner loop of `MergeInputTensors`, for one `(name, tensor)`
entry of a task: push the tensor, then, when this is the last task and
padding is needed, push `padding_size` copies of `tensor.Slice(0, 1)`. -/
def mergeTaskEntry (padding_size : Nat) (isLast : Bool) (m : MergeMap)
    (entry : String × Tensor) : MergeMap :=
  let m1 := mergeAdd m entry.1 entry.2
  if isLast = true ∧ 0 < padding_size then
    mergeAddMany m1 entry.1 (List.replicate padding_size (entry.2.Slice 0 1))
  else m1

/-- The task loop of `MergeInputTensors`: populate `tensors_to_merge`,
treating the final task as the padding donor. -/
def mergeTasks (padding_size : Nat) (m : MergeMap) :
    List BatchingSessionTask → MergeMap
  | [] => m
  | [t] => t.inputs.foldl (mergeTaskEntry padding_size true) m
  | t :: t2 :: ts =>
      mergeTasks padding_size (t.inputs.foldl (mergeTaskEntry padding_size false) m) (t2 :: ts)

/-- The output loop of `MergeInputTensors`: for each signature input name,
look it up in the map (internal error if absent) and emit the concatenation. -/
def mergeOutput (names : List String) (m : MergeMap) :
    Except Status (List (String × Tensor)) :=
  match names with
  | [] => .ok []
  | n :: ns =>
    match mergeFind m n with
    | none => .error (.internal "One or more tasks does not conform to batch signature")
    | some ts =>
      match mergeOutput ns m with
      | .error e => .error e
      | .ok rest => .ok ((n, tensorConcat ts) :: rest)

/-- The `padding_size` computation shared by `MergeInputTensors` and
`SplitOutputTensors`:
`RoundToLowestAllowedBatchSize(batch.size()) - batch.size()`. -/
def paddingSize (options : BatchingSessionOptions) (batch : List BatchingSessionTask) : Nat :=
  RoundToLowestAllowedBatchSize options (batchSize batch) - batchSize batch

/-- `BatchingSession::MergeInputTensors`. -/
def MergeInputTensors (options : BatchingSessionOptions) (signature : TensorSignature)
    (batch : List BatchingSessionTask) : Except Status (List (String × Tensor)) :=
  if batch.length < 1 then
    .error (.internal "Batch size expected to be positive")
  else
    let padding_size := paddingSize options batch
    let tensors_to_merge := mergeTasks padding_size [] batch
    if tensors_to_merge.length ≠ signature.input_tensors.length then
      .error (.internal "One or more tasks does not conform to batch signature")
    else
      mergeOutput signature.input_tensors tensors_to_merge

/-- The `split_tensors` map of `SplitOutputTensors`, as an association list. -/
abbrev SplitMap := List (String × List Tensor)

/-- `split_tensors[tensor_name] = split_tensor` (map assignment). -/
def splitMapInsert (m : SplitMap) (name : String) (ts : List Tensor) : SplitMap :=
  match m with
  | [] => [(name, ts)]
  | p :: rest => if p.1 = name then (name, ts) :: rest else p :: splitMapInsert rest name ts

/-- `split_tensors.find(tensor_name)`. -/
def splitMapFind : SplitMap → String → Option (List Tensor)
  | [], _ => none
  | p :: rest, name => if p.1 = name then some p.2 else splitMapFind rest name

/-- The pairing of the `i`-th combined output tensor with the `i`-th element
of the ordered set iteration `std::vector<string>(signature.output_tensors)`
used by `SplitOutputTensors`. -/
def splitPairing (signature : TensorSignature) (combined_outputs : List Tensor) :
    List (String × Tensor) :=
  signature.output_tensors.zip combined_outputs

/-- First loop of `SplitOutputTensors`: validate each combined output tensor
(nonzero rank, axis-0 size `batch->size() + padding_size`) and store its
split under its name. -/
def buildSplitTensors (sizes : List Nat) (total : Nat)
    (pairs : List (String × Tensor)) (m : SplitMap) : Except Status SplitMap :=
  match pairs with
  | [] => .ok m
  | (tensor_name, tensor) :: rest =>
    if tensor.dims = 0 then
      .error (.failedPrecondition "Batched output tensor has 0 dimensions")
    else if tensor.dim0 ≠ total then
      .error (.failedPrecondition
        "Batched output tensor 0th dimension does not equal the sum of the 0th dimension sizes of the input tensors")
    else
      let split_tensor := tensorSplit tensor sizes
      if split_tensor.length ≠ sizes.length then
        .error (.internal "Tensor split operation did not work as expected")
      else
        buildSplitTensors sizes total rest (splitMapInsert m tensor_name split_tensor)

/-- Inner loop of the second phase of `SplitOutputTensors`: for task index `i`,
push `split_tensors[name][i]` for each requested output name, stopping at the
first name missing from the map (internal error). -/
def assignNames (m : SplitMap) (i : Nat) :
    List String → BatchingSessionTask → Status × BatchingSessionTask
  | [], t => (.ok, t)
  | n :: ns, t =>
    match splitMapFind m n with
    | none => (.internal "Task does not conform to batch signature", t)
    | some vec =>
        assignNames m i ns { t with outputs := t.outputs ++ [vec.getD i (Tensor.batched [])] }

/-- Outer loop of the second phase of `SplitOutputTensors`: tasks in order,
task `i` receiving the `i`-th part; an error stops further mutation but keeps
mutations already performed. -/
def assignAllTasks (m : SplitMap) (i : Nat) :
    List BatchingSessionTask → Status × List BatchingSessionTask
  | [] => (.ok, [])
  | t :: ts =>
    let r := assignNames m i t.output_tensor_names t
    if r.1 = Status.ok then
      let rest := assignAllTasks m (i + 1) ts
      (rest.1, r.2 :: rest.2)
    else
      (r.1, r.2 :: ts)

/-- The `task_sizes_plus_optional_padding` vector of `SplitOutputTensors`:
the per-task `zeroth_dim_size`s plus, when positive, the padding size. -/
def taskSizesPlusOptionalPadding (options : BatchingSessionOptions)
    (batch : List BatchingSessionTask) : List Nat :=
  if 0 < paddingSize options batch then
    batch.map (fun t => t.zeroth_dim_size) ++ [paddingSize options batch]
  else
    batch.map (fun t => t.zeroth_dim_size)

/-- `BatchingSession::SplitOutputTensors`. Returns the final status together
with the batch state (tasks' `outputs` vectors possibly mutated). -/
def SplitOutputTensors (options : BatchingSessionOptions) (signature : TensorSignature)
    (combined_outputs : List Tensor) (batch : List BatchingSessionTask) :
    Status × List BatchingSessionTask :=
  if batch.length < 1 then
    (.internal "Batch size expected to be positive", batch)
  else
    let padding_size := paddingSize options batch
    if combined_outputs.length ≠ signature.output_tensors.length then
      (.internal "Wrong number of batched output tensors", batch)
    else
      match buildSplitTensors (taskSizesPlusOptionalPadding options batch)
          (batchSize batch + padding_size) (splitPairing signature combined_outputs) [] with
      | .error st => (st, batch)
      | .ok m => assignAllTasks m 0 batch

/-- The wrapped session `wrapped_->Run`, as an arbitrary pure function of the
inputs, output names, target names and prior contents of the outputs vector. -/
abbrev Engine :=
  List (String × Tensor) → List String → List String → List Tensor → Status × List Tensor

/-- The ordered list `std::vector<string>(signature.output_tensors.begin(),
signature.output_tensors.end())` that `ProcessBatch` passes to the wrapped
session. -/
def engineOutputNames (signature : TensorSignature) : List String :=
  signature.output_tensors

/-- The deferred finalizer of `ProcessBatch` (`MakeCleanup`): write `status`
into every task and fire each task's `done` exactly once. -/
def finalizeBatch (status : Status) (batch : List BatchingSessionTask) :
    List BatchingSessionTask :=
  batch.map (fun t => { t with status := some status, doneCount := t.doneCount + 1 })

/-- `BatchingSession::ProcessBatch`: merge, run the wrapped session on the
signature's ordered output names, split, and on every exit path apply the
finalizer with the current status. -/
def ProcessBatch (options : BatchingSessionOptions) (engine : Engine)
    (signature : TensorSignature) (batch : List BatchingSessionTask) :
    List BatchingSessionTask :=
  if batch.isEmpty then batch
  else
    match MergeInputTensors options signature batch with
    | .error status => finalizeBatch status batch
    | .ok merged_inputs =>
      match engine merged_inputs (engineOutputNames signature) [] [] with
      | (status, combined_outputs) =>
        if status ≠ Status.ok then finalizeBatch status batch
        else
          match SplitOutputTensors options signature combined_outputs batch with
          | (status2, batch2) => finalizeBatch status2 batch2

/-- The observable behaviour of one `BatchingSession::Run` call, up to the
point where the caller either gets a direct answer or blocks on a scheduled
task. Every constructor carries the state of the caller-supplied `outputs`
vector at that point. -/
inductive RunAction where
  | reject (st : Status) (outputs : List Tensor)
  | bypass (st : Status) (outputs : List Tensor)
  | schedule (task : BatchingSessionTask) (outputs : List Tensor)
deriving DecidableEq, Repr

/-- `BatchingSession::Run`, with the dispatch table abstracted by its lookup
predicate `table` and the wrapped session by `engine`. -/
def BatchingSession.Run (table : TensorSignature → Bool) (engine : Engine)
    (inputs : List (String × Tensor)) (output_tensor_names : List String)
    (target_node_names : List String) (outputs : List Tensor) : RunAction :=
  if target_node_names ≠ [] then
    .reject (.permissionDenied "BatchingSession does not support target nodes") outputs
  else
    let signature := TensorSignatureFromRunArgs inputs output_tensor_names
    if table signature = false then
      match engine inputs output_tensor_names target_node_names outputs with
      | (st, outs) => .bypass st outs
    else
      let outputs := ([] : List Tensor)
      match ComputeInputSize inputs with
      | .error st => .reject st outputs
      | .ok sz =>
        .schedule
          { zeroth_dim_size := sz
            inputs := inputs
            output_tensor_names := output_tensor_names
            outputs := outputs
            status := none
            doneCount := 0 } outputs

/-! ## Helper lemmas -/

theorem roundGe (options : BatchingSessionOptions) (n : Nat) :
    n ≤ RoundToLowestAllowedBatchSize options n := by
  unfold RoundToLowestAllowedBatchSize
  by_cases h : options.allowed_batch_sizes.isEmpty
  · simp [h]
  · simp only [h, Bool.false_eq_true, if_false]
    cases hf : options.allowed_batch_sizes.find? (fun allowed_size => n ≤ allowed_size) with
    | none => exact le_refl n
    | some a =>
      have := List.find?_some hf
      simpa using this

theorem find_ge_min (l : List Nat) (n : Nat) (hl : List.Sorted (· < ·) l) :
    ∀ a ∈ l, n ≤ a → ∃ b, l.find? (fun x => n ≤ x) = some b ∧ b ≤ a := by
  induction l with
  | nil => intro a ha; cases ha
  | cons c rest ih =>
    intro a ha hna
    by_cases hc : n ≤ c
    · refine ⟨c, by simp [List.find?_cons, hc], ?_⟩
      rcases List.mem_cons.mp ha with rfl | hmem
      · exact le_refl _
      · exact le_of_lt ((List.sorted_cons.mp hl).1 a hmem)
    · have ha2 : a ∈ rest := by
        rcases List.mem_cons.mp ha with rfl | hmem
        · exact absurd hna hc
        · exact hmem
      obtain ⟨b, hb, hba⟩ := ih (List.sorted_cons.mp hl).2 a ha2 hna
      exact ⟨b, by simp [List.find?_cons, hc, hb], hba⟩

/-! ## Claim C5 -/

/-- C5: for a strictly increasing `allowed_batch_sizes` list,
`RoundToLowestAllowedBatchSize` returns `n` when the list is empty; otherwise
it returns the smallest list element `≥ n` (it is a member, is `≥ n`, and is
`≤` every member `≥ n`); and when every element is exceeded by `n` (in
particular when `n` exceeds the last element) it returns `n` unchanged. -/
theorem claim_C5_roundToLowestAllowedBatchSize (options : BatchingSessionOptions) (n : Nat)
    (hsorted : List.Sorted (· < ·) options.allowed_batch_sizes) :
    (options.allowed_batch_sizes = [] → RoundToLowestAllowedBatchSize options n = n) ∧
    (∀ a ∈ options.allowed_batch_sizes, n ≤ a →
      RoundToLowestAllowedBatchSize options n ∈ options.allowed_batch_sizes ∧
      n ≤ RoundToLowestAllowedBatchSize options n ∧
      RoundToLowestAllowedBatchSize options n ≤ a) ∧
    ((∀ a ∈ options.allowed_batch_sizes, a < n) →
      RoundToLowestAllowedBatchSize options n = n) := by
  refine ⟨?_, ?_, ?_⟩
  · intro h
    simp [RoundToLowestAllowedBatchSize, h]
  · intro a ha hna
    obtain ⟨b, hb, hba⟩ := find_ge_min options.allowed_batch_sizes n hsorted a ha hna
    have hne : options.allowed_batch_sizes.isEmpty = false := by
      cases h : options.allowed_batch_sizes with
      | nil => rw [h] at ha; cases ha
      | cons x xs => rfl
    have hbmem := List.mem_of_find?_eq_some hb
    have hbge : n ≤ b := by simpa using List.find?_some hb
    simp only [RoundToLowestAllowedBatchSize, hne, Bool.false_eq_true, if_false, hb]
    exact ⟨hbmem, hbge, hba⟩
  · intro h
    by_cases hne : options.allowed_batch_sizes.isEmpty
    · simp [RoundToLowestAllowedBatchSize, hne]
    · have hf : options.allowed_batch_sizes.find? (fun x => n ≤ x) = none := by
        rw [List.find?_eq_none]
        intro x hx
        simp only [decide_eq_true_eq]
        exact not_le.mpr (h x hx)
      simp [RoundToLowestAllowedBatchSize, hne, hf]

/-! ## Claim C6 -/

theorem computeLoop_ok_of (inputs : List (String × Tensor)) (s : Nat)
    (h : ∀ p ∈ inputs, p.2.dims ≠ 0 ∧ p.2.dim0 = s) :
    computeInputSizeLoop inputs false s = .ok s := by
  induction inputs with
  | nil => rfl
  | cons p rest ih =>
    obtain ⟨h1, h2⟩ := h p (List.mem_cons_self p rest)
    have := ih (fun q hq => h q (List.mem_cons_of_mem p hq))
    simp [computeInputSizeLoop, h1, h2, this]

theorem computeLoop_err_of (inputs : List (String × Tensor)) (s : Nat)
    (h : ∃ p ∈ inputs, p.2.dims = 0 ∨ p.2.dim0 ≠ s) :
    ∃ msg, computeInputSizeLoop inputs false s = .error (.invalidArgument msg) := by
  induction inputs with
  | nil => obtain ⟨p, hp, _⟩ := h; cases hp
  | cons p rest ih =>
    by_cases h1 : p.2.dims = 0
    · exact ⟨"Batching session Run() input tensors must have at least one dimension",
        by simp [computeInputSizeLoop, h1]⟩
    · by_cases h2 : p.2.dim0 = s
      · have hrest : ∃ q ∈ rest, q.2.dims = 0 ∨ q.2.dim0 ≠ s := by
          obtain ⟨q, hq, hcase⟩ := h
          rcases List.mem_cons.mp hq with rfl | hmem
          · rcases hcase with hc | hc
            · exact absurd hc h1
            · exact absurd h2 hc
          · exact ⟨q, hmem, hcase⟩
        obtain ⟨msg, hmsg⟩ := ih hrest
        exact ⟨msg, by simp [computeInputSizeLoop, h1, h2, hmsg]⟩
      · exact ⟨"Batching session Run() input tensors must have equal 0th-dimension size",
          by simp [computeInputSizeLoop, h1, h2]⟩

theorem computeLoop_ok_val (inputs : List (String × Tensor)) (s s2 : Nat)
    (h : computeInputSizeLoop inputs false s = .ok s2) : s2 = s := by
  induction inputs with
  | nil => simpa [computeInputSizeLoop] using h.symm
  | cons p rest ih =>
    by_cases h1 : p.2.dims = 0
    · simp [computeInputSizeLoop, h1] at h
    · by_cases h2 : p.2.dim0 = s
      · exact ih (by simpa [computeInputSizeLoop, h1, h2] using h)
      · simp [computeInputSizeLoop, h1, h2] at h

/-- C6: `ComputeInputSize` fails if and only if the input list is empty, some
tensor has rank 0, or two tensors have different axis-0 sizes; any failure is
an invalid-argument status; success returns the axis-0 size of the first
tensor; and in `Run` (dispatch hit, no target nodes) such a failure is
returned directly, with no task scheduled. -/
theorem claim_C6_computeInputSize (inputs : List (String × Tensor)) :
    ((∃ st, ComputeInputSize inputs = .error st) ↔
      inputs = [] ∨ (∃ p ∈ inputs, p.2.dims = 0) ∨
        (∃ p ∈ inputs, ∃ q ∈ inputs, p.2.dim0 ≠ q.2.dim0)) ∧
    (∀ st, ComputeInputSize inputs = .error st → ∃ msg, st = .invalidArgument msg) ∧
    (∀ s, ComputeInputSize inputs = .ok s →
      ∃ p rest, inputs = p :: rest ∧ s = p.2.dim0) ∧
    (∀ (table : TensorSignature → Bool) (engine : Engine)
        (output_tensor_names : List String) (prior : List Tensor) (st : Status),
      ComputeInputSize inputs = .error st →
      table (TensorSignatureFromRunArgs inputs output_tensor_names) = true →
      BatchingSession.Run table engine inputs output_tensor_names [] prior =
        .reject st []) := by
  refine ⟨⟨?_, ?_⟩, ?_, ?_, ?_⟩
  · intro ⟨st, hst⟩
    by_contra hcon
    push_neg at hcon
    obtain ⟨hne, hrank, hdim⟩ := hcon
    cases hin : inputs with
    | nil => exact hne hin
    | cons p rest =>
      subst hin
      have hp1 : p.2.dims ≠ 0 := hrank p (List.mem_cons_self p rest)
      have hall : ∀ q ∈ rest, q.2.dims ≠ 0 ∧ q.2.dim0 = p.2.dim0 := by
        intro q hq
        exact ⟨hrank q (List.mem_cons_of_mem p hq),
          hdim q (List.mem_cons_of_mem p hq) p (List.mem_cons_self p rest)⟩
      have hok : ComputeInputSize (p :: rest) = .ok p.2.dim0 := by
        simp only [ComputeInputSize, List.length_cons, Nat.succ_ne_zero, if_false]
        simp [computeInputSizeLoop, hp1, computeLoop_ok_of rest p.2.dim0 hall]
      rw [hok] at hst
      cases hst
  · intro h
    rcases h with hne | ⟨p, hp, hp0⟩ | ⟨p, hp, q, hq, hpq⟩
    · exact ⟨.invalidArgument "Batching session Run() must have at least one input tensor",
        by simp [hne, ComputeInputSize]⟩
    · cases hin : inputs with
      | nil => rw [hin] at hp; cases hp
      | cons p0 rest =>
        subst hin
        by_cases h0 : p0.2.dims = 0
        · exact ⟨.invalidArgument
            "Batching session Run() input tensors must have at least one dimension",
            by simp [ComputeInputSize, computeInputSizeLoop, h0]⟩
        · have hp2 : p ∈ rest := by
            rcases List.mem_cons.mp hp with rfl | hmem
            · exact absurd hp0 h0
            · exact hmem
          obtain ⟨msg, hmsg⟩ := computeLoop_err_of rest p0.2.dim0 ⟨p, hp2, Or.inl hp0⟩
          exact ⟨.invalidArgument msg,
            by simp [ComputeInputSize, computeInputSizeLoop, h0, hmsg]⟩
    · cases hin : inputs with
      | nil => rw [hin] at hp; cases hp
      | cons p0 rest =>
        subst hin
        by_cases h0 : p0.2.dims = 0
        · exact ⟨.invalidArgument
            "Batching session Run() input tensors must have at least one dimension",
            by simp [ComputeInputSize, computeInputSizeLoop, h0]⟩
        · have hwit : ∃ r ∈ rest, r.2.dims = 0 ∨ r.2.dim0 ≠ p0.2.dim0 := by
            by_cases hpd : p.2.dim0 = p0.2.dim0
            · have hqd : q.2.dim0 ≠ p0.2.dim0 := fun hqq => hpq (by rw [hpd, hqq])
              have hq2 : q ∈ rest := by
                rcases List.mem_cons.mp hq with rfl | hmem
                · exact absurd rfl hqd
                · exact hmem
              exact ⟨q, hq2, Or.inr hqd⟩
            · have hp2 : p ∈ rest := by
                rcases List.mem_cons.mp hp with rfl | hmem
                · exact absurd rfl hpd
                · exact hmem
              exact ⟨p, hp2, Or.inr hpd⟩
          obtain ⟨msg, hmsg⟩ := computeLoop_err_of rest p0.2.dim0 hwit
          exact ⟨.invalidArgument msg,
            by simp [ComputeInputSize, computeInputSizeLoop, h0, hmsg]⟩
  · intro st hst
    unfold ComputeInputSize at hst
    by_cases hne : inputs.length = 0
    · rw [if_pos hne] at hst
      exact ⟨_, (Except.error.inj hst).symm⟩
    · rw [if_neg hne] at hst
      cases hin : inputs with
      | nil => rw [hin] at hne; exact absurd rfl hne
      | cons p0 rest =>
        subst hin
        by_cases h0 : p0.2.dims = 0
        · simp [computeInputSizeLoop, h0] at hst
          exact ⟨_, hst.symm⟩
        · simp only [computeInputSizeLoop, h0, if_false, if_true] at hst
          clear hne
          induction rest generalizing p0 with
          | nil => simp [computeInputSizeLoop] at hst
          | cons q qs ih =>
            by_cases hq0 : q.2.dims = 0
            · simp [computeInputSizeLoop, hq0] at hst
              exact ⟨_, hst.symm⟩
            · by_cases hqd : q.2.dim0 = p0.2.dim0
              · exact ih p0 h0 (by simpa [computeInputSizeLoop, hq0, hqd] using hst)
              · simp [computeInputSizeLoop, hq0, hqd] at hst
                exact ⟨_, hst.symm⟩
  · intro s hs
    unfold ComputeInputSize at hs
    cases hin : inputs with
    | nil => rw [hin] at hs; simp at hs
    | cons p0 rest =>
      subst hin
      simp only [List.length_cons, Nat.succ_ne_zero, if_false] at hs
      by_cases h0 : p0.2.dims = 0
      · simp [computeInputSizeLoop, h0] at hs
      · simp only [computeInputSizeLoop, h0, if_false, if_true] at hs
        refine ⟨p0, rest, rfl, ?_⟩
        exact computeLoop_ok_val rest p0.2.dim0 s (by simpa using hs)
  · intro table engine output_tensor_names prior st hst htable
    simp [BatchingSession.Run, htable, hst]

/-! ## Claim C7 -/

/-- C7: the signature hash combines per-name hashes with a commutative
combiner (modelled from the spec as XOR), hence it is invariant under
permutation of the input-name set and the output-name set, and in particular
consistent with the equality predicate `EqTensorSignature`. -/
theorem claim_C7_hashTensorSignature (strHash : String → Nat) (lhs rhs : TensorSignature)
    (hin : lhs.input_tensors.Perm rhs.input_tensors)
    (hout : lhs.output_tensors.Perm rhs.output_tensors) :
    (∀ h1 h2, HashCombine h1 h2 = HashCombine h2 h1) ∧
    (∀ sig1 sig2, EqTensorSignature sig1 sig2 = true →
      HashTensorSignature strHash sig1 = HashTensorSignature strHash sig2) ∧
    HashTensorSignature strHash lhs = HashTensorSignature strHash rhs := by
  have hrc : RightCommutative (fun h n => HashCombine h (strHash n)) := by
    constructor
    intro b a1 a2
    simp only [HashCombine]
    rw [Nat.xor_assoc, Nat.xor_assoc, Nat.xor_comm (strHash a1) (strHash a2)]
  refine ⟨?_, ?_, ?_⟩
  · intro h1 h2
    exact Nat.xor_comm h1 h2
  · intro sig1 sig2 heq
    unfold EqTensorSignature at heq
    simp only [Bool.and_eq_true, beq_iff_eq] at heq
    unfold HashTensorSignature
    rw [heq.1, heq.2]
  · unfold HashTensorSignature
    rw [hin.foldl_eq, hout.foldl_eq]

/-! ## Claim C4 -/

/-- A dispatch table with no registered signatures (every lookup misses). -/
def tableMiss : TensorSignature → Bool := fun _ => false

/-- A dispatch table that hits on every signature. -/
def tableHit : TensorSignature → Bool := fun _ => true

/-- A wrapped session that ignores its arguments and succeeds with one fixed
output tensor. -/
def engineConst : Engine := fun _ _ _ _ => (Status.ok, [Tensor.batched [[7]]])

/-- C4 counterexample: a call whose extracted signature is not in the dispatch
table but whose `target_node_names` is non-empty is rejected with
`PermissionDenied` before the dispatch lookup, so `Run` does not return what
the engine returns for the same arguments. -/
theorem claim_C4_counterexample :
    tableMiss (TensorSignatureFromRunArgs [("x", Tensor.batched [[1]])] ["y"]) = false ∧
    BatchingSession.Run tableMiss engineConst [("x", Tensor.batched [[1]])] ["y"] ["init"] [] =
      RunAction.reject (.permissionDenied "BatchingSession does not support target nodes") [] ∧
    BatchingSession.Run tableMiss engineConst [("x", Tensor.batched [[1]])] ["y"] ["init"] [] ≠
      RunAction.bypass
        (engineConst [("x", Tensor.batched [[1]])] ["y"] ["init"] []).1
        (engineConst [("x", Tensor.batched [[1]])] ["y"] ["init"] []).2 := by
  refine ⟨rfl, rfl, ?_⟩
  decide

/-- C4 as amended: for every call with empty `target_node_names` whose
extracted signature is not a key of the dispatch table, `Run` forwards the
inputs, the requested output names and the (empty) target node names verbatim
to the wrapped engine and returns exactly the engine's status and outputs. -/
theorem claim_C4_bypassEquivalence (table : TensorSignature → Bool) (engine : Engine)
    (inputs : List (String × Tensor)) (output_tensor_names : List String)
    (prior : List Tensor)
    (hmiss : table (TensorSignatureFromRunArgs inputs output_tensor_names) = false) :
    BatchingSession.Run table engine inputs output_tensor_names [] prior =
      RunAction.bypass (engine inputs output_tensor_names [] prior).1
        (engine inputs output_tensor_names [] prior).2 := by
  simp [BatchingSession.Run, hmiss]

/-- C4 witness: the amended theorem applied at a concrete missing signature. -/
theorem claim_C4_witness :
    BatchingSession.Run tableMiss engineConst [("x", Tensor.batched [[1]])] ["y"] []
        [Tensor.scalar 9] =
      RunAction.bypass Status.ok [Tensor.batched [[7]]] :=
  claim_C4_bypassEquivalence tableMiss engineConst [("x", Tensor.batched [[1]])] ["y"]
    [Tensor.scalar 9] rfl

/-! ## Claim C10 -/

/-- C10: on a dispatch hit the caller-supplied outputs vector is cleared
before any task is scheduled (both the vector state and the scheduled task's
outputs pointer show `[]`, whatever the prior contents), while on a dispatch
miss the outputs vector is handed to the wrapped engine with its prior
contents intact. -/
theorem claim_C10_outputsClearing (table : TensorSignature → Bool) (engine : Engine)
    (inputs : List (String × Tensor)) (output_tensor_names : List String)
    (prior : List Tensor) :
    (table (TensorSignatureFromRunArgs inputs output_tensor_names) = true →
      (∃ st, BatchingSession.Run table engine inputs output_tensor_names [] prior =
          .reject st []) ∨
      (∃ task, BatchingSession.Run table engine inputs output_tensor_names [] prior =
          .schedule task [] ∧ task.outputs = [])) ∧
    (table (TensorSignatureFromRunArgs inputs output_tensor_names) = false →
      BatchingSession.Run table engine inputs output_tensor_names [] prior =
        RunAction.bypass (engine inputs output_tensor_names [] prior).1
          (engine inputs output_tensor_names [] prior).2) := by
  constructor
  · intro htable
    cases hci : ComputeInputSize inputs with
    | error st =>
      exact Or.inl ⟨st, by simp [BatchingSession.Run, htable, hci]⟩
    | ok sz =>
      exact Or.inr ⟨⟨sz, inputs, output_tensor_names, [], none, 0⟩,
        by simp [BatchingSession.Run, htable, hci], rfl⟩
  · intro htable
    simp [BatchingSession.Run, htable]

/-- C10 witness: the theorem applied at a concrete hit and a concrete prior
outputs vector. -/
theorem claim_C10_witness :
    (∃ st, BatchingSession.Run tableHit engineConst [("x", Tensor.batched [[1]])] ["y"] []
        [Tensor.scalar 9] = .reject st []) ∨
    (∃ task, BatchingSession.Run tableHit engineConst [("x", Tensor.batched [[1]])] ["y"] []
        [Tensor.scalar 9] = .schedule task [] ∧ task.outputs = []) :=
  (claim_C10_outputsClearing tableHit engineConst [("x", Tensor.batched [[1]])] ["y"]
    [Tensor.scalar 9]).1 rfl

/-! ## Claim C9 -/

theorem zip_getD (a : List String) (b : List Tensor) (i : Nat)
    (ha : i < a.length) (hb : i < b.length) :
    (a.zip b).getD i ("", Tensor.batched []) =
      (a.getD i "", b.getD i (Tensor.batched [])) := by
  induction a generalizing b i with
  | nil => cases ha
  | cons x xs ih =>
    cases b with
    | nil => cases hb
    | cons y ys =>
      cases i with
      | zero => rfl
      | succ j =>
        simp only [List.zip_cons_cons, List.getD_cons_succ]
        exact ih ys j (Nat.lt_of_succ_lt_succ ha) (Nat.lt_of_succ_lt_succ hb)

/-- C9: the ordered output-name list `ProcessBatch` hands to the wrapped
engine and the list `SplitOutputTensors` uses to pair `combined_outputs[i]`
with a name are the same iteration of the signature's output-name set: the
pairing's name list is exactly `engineOutputNames`, the `i`-th pair couples
the `i`-th engine output name with the `i`-th combined tensor, and
`ProcessBatch` consults the engine only at that name list (engines agreeing
there are indistinguishable). -/
theorem claim_C9_outputNameAgreement (signature : TensorSignature)
    (combined_outputs : List Tensor) (options : BatchingSessionOptions)
    (engine1 engine2 : Engine) (batch : List BatchingSessionTask)
    (hlen : combined_outputs.length = (engineOutputNames signature).length)
    (hagree : ∀ merged prior,
      engine1 merged (engineOutputNames signature) [] prior =
        engine2 merged (engineOutputNames signature) [] prior) :
    (splitPairing signature combined_outputs).map Prod.fst = engineOutputNames signature ∧
    (∀ i, i < combined_outputs.length →
      (splitPairing signature combined_outputs).getD i ("", Tensor.batched []) =
        ((engineOutputNames signature).getD i "",
          combined_outputs.getD i (Tensor.batched []))) ∧
    ProcessBatch options engine1 signature batch =
      ProcessBatch options engine2 signature batch := by
  refine ⟨?_, ?_, ?_⟩
  · exact List.map_fst_zip signature.output_tensors combined_outputs (le_of_eq hlen.symm)
  · intro i hi
    have h2 : i < signature.output_tensors.length := by
      unfold engineOutputNames at hlen
      omega
    exact zip_getD signature.output_tensors combined_outputs i h2 hi
  · unfold ProcessBatch
    cases hm : MergeInputTensors options signature batch with
    | error st => rfl
    | ok merged => simp only [hagree]

/-- C9 witness: the theorem applied at a concrete signature, tensor list and
batch, with the two engines literally equal. -/
theorem claim_C9_witness :
    (splitPairing ⟨["x"], ["y"]⟩ [Tensor.batched [[1]]]).map Prod.fst =
      engineOutputNames ⟨["x"], ["y"]⟩ ∧
    (∀ i, i < ([Tensor.batched [[1]]] : List Tensor).length →
      (splitPairing ⟨["x"], ["y"]⟩ [Tensor.batched [[1]]]).getD i ("", Tensor.batched []) =
        ((engineOutputNames ⟨["x"], ["y"]⟩).getD i "",
          ([Tensor.batched [[1]]] : List Tensor).getD i (Tensor.batched []))) ∧
    ProcessBatch ⟨[]⟩ engineConst ⟨["x"], ["y"]⟩ [] =
      ProcessBatch ⟨[]⟩ engineConst ⟨["x"], ["y"]⟩ [] :=
  claim_C9_outputNameAgreement ⟨["x"], ["y"]⟩ [Tensor.batched [[1]]] ⟨[]⟩
    engineConst engineConst [] rfl (fun _ _ => rfl)

/-- C5 witness: the rounding theorem applied at a concrete increasing list. -/
theorem claim_C5_witness : RoundToLowestAllowedBatchSize ⟨[2, 4, 8]⟩ 3 ≤ 4 :=
  ((claim_C5_roundToLowestAllowedBatchSize ⟨[2, 4, 8]⟩ 3 (by decide)).2.1 4
    (by decide) (by decide)).2.2

/-- C6 witness: the characterisation applied at the concrete empty input list. -/
theorem claim_C6_witness : ∃ st, ComputeInputSize ([] : List (String × Tensor)) =
    Except.error st :=
  (claim_C6_computeInputSize []).1.mpr (Or.inl rfl)

/-- C7 witness: equal hashes for two concrete set-equal signatures built in
different orders. -/
theorem claim_C7_witness :
    HashTensorSignature (fun s => s.length) ⟨["a", "b"], ["y"]⟩ =
      HashTensorSignature (fun s => s.length) ⟨["b", "a"], ["y"]⟩ :=
  (claim_C7_hashTensorSignature (fun s => s.length) ⟨["a", "b"], ["y"]⟩
    ⟨["b", "a"], ["y"]⟩ (by decide) (by decide)).2.2

/-! ## Claim C8 -/

/-- The key list of a merge map (the map's distinct tensor names, in order). -/
def mergeKeys (m : MergeMap) : List String := m.map Prod.fst

theorem mergeKeys_cons (p : String × List Tensor) (m : MergeMap) :
    mergeKeys (p :: m) = p.1 :: mergeKeys m := rfl

theorem mergeKeys_add (m : MergeMap) (n : String) (t : Tensor) :
    mergeKeys (mergeAdd m n t) =
      if n ∈ mergeKeys m then mergeKeys m else mergeKeys m ++ [n] := by
  induction m with
  | nil => simp [mergeAdd, mergeKeys]
  | cons p rest ih =>
    by_cases h : p.1 = n
    · simp [mergeAdd, mergeKeys, h]
    · have hne : ¬ n = p.1 := fun hh => h hh.symm
      have hstep : mergeAdd (p :: rest) n t = p :: mergeAdd rest n t := by
        simp [mergeAdd, h]
      rw [hstep, mergeKeys_cons, ih, mergeKeys_cons]
      by_cases hmem : n ∈ mergeKeys rest
      · rw [if_pos hmem, if_pos (List.mem_cons_of_mem _ hmem)]
      · rw [if_neg hmem, if_neg (by simp [hne, hmem])]
        rfl

theorem mergeFind_eq_none (m : MergeMap) (n : String) :
    mergeFind m n = none ↔ n ∉ mergeKeys m := by
  induction m with
  | nil => simp [mergeFind, mergeKeys]
  | cons p rest ih =>
    by_cases h : p.1 = n
    · simp [mergeFind, mergeKeys, h]
    · have hne : ¬ n = p.1 := fun hh => h hh.symm
      simp [mergeFind, mergeKeys, h, hne, ih]

theorem mergeFind_of_mem (m : MergeMap) (n : String) (h : n ∈ mergeKeys m) :
    ∃ v, mergeFind m n = some v := by
  cases hf : mergeFind m n with
  | none => exact absurd ((mergeFind_eq_none m n).mp hf) (by simp [h])
  | some v => exact ⟨v, rfl⟩

theorem mergeKeys_addMany (m : MergeMap) (n : String) (ts : List Tensor)
    (h : n ∈ mergeKeys m) : mergeKeys (mergeAddMany m n ts) = mergeKeys m := by
  induction ts generalizing m with
  | nil => rfl
  | cons t rest ih =>
    have h1 : mergeKeys (mergeAdd m n t) = mergeKeys m := by rw [mergeKeys_add, if_pos h]
    have h2 : n ∈ mergeKeys (mergeAdd m n t) := by rw [h1]; exact h
    calc mergeKeys (mergeAddMany m n (t :: rest))
        = mergeKeys (mergeAddMany (mergeAdd m n t) n rest) := rfl
      _ = mergeKeys (mergeAdd m n t) := ih _ h2
      _ = mergeKeys m := h1

theorem mergeKeys_taskEntry (pad : Nat) (isLast : Bool) (m : MergeMap)
    (entry : String × Tensor) :
    mergeKeys (mergeTaskEntry pad isLast m entry) =
      if entry.1 ∈ mergeKeys m then mergeKeys m else mergeKeys m ++ [entry.1] := by
  unfold mergeTaskEntry
  have hmem : entry.1 ∈ mergeKeys (mergeAdd m entry.1 entry.2) := by
    rw [mergeKeys_add]
    by_cases h : entry.1 ∈ mergeKeys m
    · simp [h]
    · simp [h]
  by_cases hc : isLast = true ∧ 0 < pad
  · rw [if_pos hc, mergeKeys_addMany _ _ _ hmem, mergeKeys_add]
  · rw [if_neg hc, mergeKeys_add]

theorem mergeKeys_foldl_mem (pad : Nat) (isLast : Bool)
    (inputs : List (String × Tensor)) (m : MergeMap) (k : String) :
    k ∈ mergeKeys (inputs.foldl (mergeTaskEntry pad isLast) m) ↔
      k ∈ mergeKeys m ∨ k ∈ inputs.map Prod.fst := by
  induction inputs generalizing m with
  | nil => simp
  | cons p rest ih =>
    simp only [List.foldl_cons, List.map_cons, List.mem_cons]
    rw [ih]
    rw [mergeKeys_taskEntry]
    by_cases h : p.1 ∈ mergeKeys m
    · simp only [h, if_true]
      constructor
      · intro hc
        rcases hc with hc | hc
        · exact Or.inl hc
        · exact Or.inr (Or.inr hc)
      · intro hc
        rcases hc with hc | hc | hc
        · exact Or.inl hc
        · exact Or.inl (hc ▸ h)
        · exact Or.inr hc
    · simp only [h, if_false]
      constructor
      · intro hc
        rcases hc with hc | hc
        · rcases List.mem_append.mp hc with hc2 | hc2
          · exact Or.inl hc2
          · exact Or.inr (Or.inl (List.mem_singleton.mp hc2))
        · exact Or.inr (Or.inr hc)
      · intro hc
        rcases hc with hc | hc | hc
        · exact Or.inl (List.mem_append.mpr (Or.inl hc))
        · exact Or.inl (List.mem_append.mpr (Or.inr (by simp [hc])))
        · exact Or.inr hc

theorem mergeKeys_foldl_nodup (pad : Nat) (isLast : Bool)
    (inputs : List (String × Tensor)) (m : MergeMap)
    (h : (mergeKeys m).Nodup) :
    (mergeKeys (inputs.foldl (mergeTaskEntry pad isLast) m)).Nodup := by
  induction inputs generalizing m with
  | nil => exact h
  | cons p rest ih =>
    simp only [List.foldl_cons]
    apply ih
    rw [mergeKeys_taskEntry]
    by_cases hc : p.1 ∈ mergeKeys m
    · simpa [hc] using h
    · simp only [hc, if_false]
      rw [List.nodup_append]
      refine ⟨h, List.nodup_singleton _, ?_⟩
      intro a ha hb
      rw [List.mem_singleton] at hb
      exact hc (hb ▸ ha)

theorem mergeKeys_tasks_mem (pad : Nat) (batch : List BatchingSessionTask)
    (m : MergeMap) (k : String) :
    k ∈ mergeKeys (mergeTasks pad m batch) ↔
      k ∈ mergeKeys m ∨ ∃ t ∈ batch, k ∈ t.inputs.map Prod.fst := by
  induction batch generalizing m with
  | nil => simp [mergeTasks]
  | cons t rest ih =>
    cases rest with
    | nil =>
      simp only [mergeTasks]
      rw [mergeKeys_foldl_mem]
      simp
    | cons t2 ts =>
      simp only [mergeTasks]
      rw [ih]
      rw [mergeKeys_foldl_mem]
      constructor
      · intro hc
        rcases hc with (hc | hc) | hc
        · exact Or.inl hc
        · exact Or.inr ⟨t, List.mem_cons_self t _, hc⟩
        · obtain ⟨u, hu, hku⟩ := hc
          exact Or.inr ⟨u, List.mem_cons_of_mem t hu, hku⟩
      · intro hc
        rcases hc with hc | ⟨u, hu, hku⟩
        · exact Or.inl (Or.inl hc)
        · rcases List.mem_cons.mp hu with rfl | hu2
          · exact Or.inl (Or.inr hku)
          · exact Or.inr ⟨u, hu2, hku⟩

theorem mergeKeys_tasks_nodup (pad : Nat) (batch : List BatchingSessionTask)
    (m : MergeMap) (h : (mergeKeys m).Nodup) :
    (mergeKeys (mergeTasks pad m batch)).Nodup := by
  induction batch generalizing m with
  | nil => exact h
  | cons t rest ih =>
    cases rest with
    | nil => exact mergeKeys_foldl_nodup _ _ _ _ h
    | cons t2 ts => exact ih _ (mergeKeys_foldl_nodup _ _ _ _ h)

theorem mergeOutput_err (names : List String) (m : MergeMap)
    (h : ∃ n ∈ names, mergeFind m n = none) :
    ∃ msg, mergeOutput names m = .error (.internal msg) := by
  induction names with
  | nil => obtain ⟨n, hn, _⟩ := h; cases hn
  | cons n ns ih =>
    cases hf : mergeFind m n with
    | none =>
      exact ⟨"One or more tasks does not conform to batch signature",
        by simp [mergeOutput, hf]⟩
    | some v =>
      have hrest : ∃ n2 ∈ ns, mergeFind m n2 = none := by
        obtain ⟨n2, hn2, hfn2⟩ := h
        rcases List.mem_cons.mp hn2 with rfl | hmem
        · rw [hf] at hfn2; cases hfn2
        · exact ⟨n2, hmem, hfn2⟩
      obtain ⟨msg, hmsg⟩ := ih hrest
      exact ⟨msg, by simp [mergeOutput, hf, hmsg]⟩

/-- C8 as amended: for every non-empty batch, if the union over all tasks of
the contributed input-tensor names is not exactly the signature's
input-name set, `MergeInputTensors` returns an internal error. (Per-task
conformance is not required: tasks may jointly cover the signature.) -/
theorem claim_C8_mergeSignatureConformance (options : BatchingSessionOptions)
    (signature : TensorSignature) (batch : List BatchingSessionTask)
    (hne : batch ≠ []) (hnodup : signature.input_tensors.Nodup)
    (hdiff : ¬ ∀ n, (∃ t ∈ batch, n ∈ t.inputs.map Prod.fst) ↔
      n ∈ signature.input_tensors) :
    ∃ msg, MergeInputTensors options signature batch = .error (.internal msg) := by
  have hlen1 : ¬ (batch.length < 1) := by
    cases batch with
    | nil => exact absurd rfl hne
    | cons t ts => simp
  have hkmem : ∀ k, k ∈ mergeKeys (mergeTasks (paddingSize options batch) [] batch) ↔
      ∃ t ∈ batch, k ∈ t.inputs.map Prod.fst := by
    intro k
    rw [mergeKeys_tasks_mem]
    simp [mergeKeys]
  have hknd : (mergeKeys (mergeTasks (paddingSize options batch) [] batch)).Nodup :=
    mergeKeys_tasks_nodup _ _ _ (by simp [mergeKeys])
  have hkeylen : (mergeTasks (paddingSize options batch) [] batch).length =
      (mergeKeys (mergeTasks (paddingSize options batch) [] batch)).length :=
    (List.length_map _ _).symm
  by_cases hlen : (mergeTasks (paddingSize options batch) [] batch).length =
      signature.input_tensors.length
  · have hnotall : ¬ ∀ n ∈ signature.input_tensors,
        n ∈ mergeKeys (mergeTasks (paddingSize options batch) [] batch) := by
      intro hall
      apply hdiff
      have hsub : signature.input_tensors ⊆
          mergeKeys (mergeTasks (paddingSize options batch) [] batch) :=
        fun n hn => hall n hn
      have hperm := (List.subperm_of_subset hnodup hsub).perm_of_length_le
        (by rw [← hkeylen, hlen])
      intro n
      rw [← hkmem n]
      exact hperm.mem_iff.symm
    push_neg at hnotall
    obtain ⟨n0, hn0, hn0not⟩ := hnotall
    have hfind : mergeFind (mergeTasks (paddingSize options batch) [] batch) n0 = none :=
      (mergeFind_eq_none _ _).mpr hn0not
    obtain ⟨msg, hmsg⟩ := mergeOutput_err signature.input_tensors _ ⟨n0, hn0, hfind⟩
    exact ⟨msg, by simp [MergeInputTensors, hlen1, hlen, hmsg]⟩
  · exact ⟨"One or more tasks does not conform to batch signature",
      by simp [MergeInputTensors, hlen1, hlen]⟩

/-- Batch signature for the C8 counterexample: inputs are the set
`{"a", "b"}`. -/
def c8signature : TensorSignature := { input_tensors := ["a", "b"], output_tensors := ["y"] }

/-- C8 counterexample task 1: contributes only input name `"a"`. -/
def c8task1 : BatchingSessionTask :=
  { zeroth_dim_size := 1, inputs := [("a", Tensor.batched [[1]])],
    output_tensor_names := ["y"], outputs := [], status := none, doneCount := 0 }

/-- C8 counterexample task 2: contributes only input name `"b"`. -/
def c8task2 : BatchingSessionTask :=
  { zeroth_dim_size := 1, inputs := [("b", Tensor.batched [[2]])],
    output_tensor_names := ["y"], outputs := [], status := none, doneCount := 0 }

/-- C8 counterexample: a non-empty batch in which no task's input-name set
equals the signature's input-name set `{"a", "b"}`, yet `MergeInputTensors`
succeeds (the two tasks jointly cover the signature), contradicting the
claim that it must return an internal error. -/
theorem claim_C8_counterexample :
    (¬ (c8task1.inputs.map Prod.fst).Perm c8signature.input_tensors) ∧
    (¬ (c8task2.inputs.map Prod.fst).Perm c8signature.input_tensors) ∧
    MergeInputTensors ⟨[]⟩ c8signature [c8task1, c8task2] =
      .ok [("a", Tensor.batched [[1]]), ("b", Tensor.batched [[2]])] :=
  ⟨by decide, by decide, rfl⟩

/-- C8 witness: the amended theorem applied at a concrete one-task batch whose
contributed names miss `"b"`. -/
theorem claim_C8_witness :
    ∃ msg, MergeInputTensors ⟨[]⟩ c8signature [c8task1] = .error (.internal msg) :=
  claim_C8_mergeSignatureConformance ⟨[]⟩ c8signature [c8task1] (by decide) (by decide)
    (fun hall => by
      have h := (hall "b").mpr (by decide)
      revert h
      decide)

/-! ## Claim C1 -/

theorem assignNames_preserve (m : SplitMap) (i : Nat) (names : List String)
    (t : BatchingSessionTask) :
    (assignNames m i names t).2.status = t.status ∧
    (assignNames m i names t).2.doneCount = t.doneCount := by
  induction names generalizing t with
  | nil => exact ⟨rfl, rfl⟩
  | cons n ns ih =>
    cases hf : splitMapFind m n with
    | none => simp [assignNames, hf]
    | some vec =>
      simp only [assignNames, hf]
      exact ih _

theorem assignAllTasks_preserve (m : SplitMap) (batch : List BatchingSessionTask) (i : Nat) :
    (assignAllTasks m i batch).2.length = batch.length ∧
    ∀ j : Nat, ((assignAllTasks m i batch).2[j]?).map (fun t => (t.status, t.doneCount)) =
      (batch[j]?).map (fun t => (t.status, t.doneCount)) := by
  induction batch generalizing i with
  | nil => exact ⟨rfl, fun _ => rfl⟩
  | cons t ts ih =>
    have hpres := assignNames_preserve m i t.output_tensor_names t
    by_cases hok : (assignNames m i t.output_tensor_names t).1 = Status.ok
    · simp only [assignAllTasks, hok, if_true]
      obtain ⟨ihlen, ihget⟩ := ih (i + 1)
      refine ⟨by simpa using ihlen, ?_⟩
      intro j
      cases j with
      | zero => simp [hpres.1, hpres.2]
      | succ k => simpa using ihget k
    · simp only [assignAllTasks, hok, if_false]
      refine ⟨by simp, ?_⟩
      intro j
      cases j with
      | zero => simp [hpres.1, hpres.2]
      | succ k => simp

theorem splitOutputTensors_preserve (options : BatchingSessionOptions)
    (signature : TensorSignature) (combined_outputs : List Tensor)
    (batch : List BatchingSessionTask) :
    (SplitOutputTensors options signature combined_outputs batch).2.length = batch.length ∧
    ∀ j : Nat, ((SplitOutputTensors options signature combined_outputs batch).2[j]?).map
        (fun t => (t.status, t.doneCount)) =
      (batch[j]?).map (fun t => (t.status, t.doneCount)) := by
  unfold SplitOutputTensors
  by_cases h1 : batch.length < 1
  · simp [h1]
  · simp only [h1, if_false]
    by_cases h2 : combined_outputs.length ≠ signature.output_tensors.length
    · simp [h2]
    · simp only [h2, if_false]
      cases hb : buildSplitTensors (taskSizesPlusOptionalPadding options batch)
          (batchSize batch + paddingSize options batch)
          (splitPairing signature combined_outputs) [] with
      | error st => simp
      | ok m => exact assignAllTasks_preserve m batch 0

theorem finalizeBatch_get (st : Status) (b : List BatchingSessionTask) (j : Nat) :
    (finalizeBatch st b)[j]? =
      (b[j]?).map (fun t => { t with status := some st, doneCount := t.doneCount + 1 }) := by
  simp [finalizeBatch, List.getElem?_map]

/-- C1: for every non-empty batch, on every exit path of `ProcessBatch`
(merge error, engine error, split error, or success) a single terminal status
is written into every task of the batch and every task's completion
notification is fired exactly once. -/
theorem claim_C1_processBatchFinalizer (options : BatchingSessionOptions) (engine : Engine)
    (signature : TensorSignature) (batch : List BatchingSessionTask)
    (hne : batch ≠ []) :
    ∃ st : Status,
      (ProcessBatch options engine signature batch).length = batch.length ∧
      ∀ j, j < batch.length →
        ∃ t0 t1, batch[j]? = some t0 ∧
          (ProcessBatch options engine signature batch)[j]? = some t1 ∧
          t1.status = some st ∧ t1.doneCount = t0.doneCount + 1 := by
  have hempty : batch.isEmpty = false := by
    cases batch with
    | nil => exact absurd rfl hne
    | cons t ts => rfl
  have hfin : ∀ st (b : List BatchingSessionTask), b.length = batch.length →
      (∀ j : Nat, (b[j]?).map (fun t => (t.status, t.doneCount)) =
        (batch[j]?).map (fun t => (t.status, t.doneCount))) →
      (finalizeBatch st b).length = batch.length ∧
      ∀ j, j < batch.length →
        ∃ t0 t1, batch[j]? = some t0 ∧ (finalizeBatch st b)[j]? = some t1 ∧
          t1.status = some st ∧ t1.doneCount = t0.doneCount + 1 := by
    intro st b hlen hget
    constructor
    · simp [finalizeBatch, hlen]
    · intro j hj
      have hj0 : batch[j]? = some batch[j] := List.getElem?_eq_getElem hj
      have hjb : j < b.length := by rw [hlen]; exact hj
      have hjb0 : b[j]? = some b[j] := List.getElem?_eq_getElem hjb
      have h2 : (b[j].status, b[j].doneCount) = (batch[j].status, batch[j].doneCount) := by
        have heq := hget j
        rw [hj0, hjb0] at heq
        simpa using heq
      have h3 : b[j].doneCount = batch[j].doneCount := congrArg Prod.snd h2
      refine ⟨batch[j], { b[j] with status := some st, doneCount := b[j].doneCount + 1 },
        hj0, ?_, rfl, ?_⟩
      · rw [finalizeBatch_get, hjb0]
        rfl
      · simp [h3]
  cases hm : MergeInputTensors options signature batch with
  | error st =>
    have hp : ProcessBatch options engine signature batch = finalizeBatch st batch := by
      simp [ProcessBatch, hempty, hm]
    rw [hp]
    exact ⟨st, hfin st batch rfl (fun j => rfl)⟩
  | ok merged =>
    by_cases hst : (engine merged (engineOutputNames signature) [] []).1 = Status.ok
    · have hp : ProcessBatch options engine signature batch =
          finalizeBatch
            (SplitOutputTensors options signature
              (engine merged (engineOutputNames signature) [] []).2 batch).1
            (SplitOutputTensors options signature
              (engine merged (engineOutputNames signature) [] []).2 batch).2 := by
        simp [ProcessBatch, hempty, hm, hst]
      rw [hp]
      have hpres := splitOutputTensors_preserve options signature
        (engine merged (engineOutputNames signature) [] []).2 batch
      exact ⟨_, hfin _ _ hpres.1 hpres.2⟩
    · have hp : ProcessBatch options engine signature batch =
          finalizeBatch (engine merged (engineOutputNames signature) [] []).1 batch := by
        simp [ProcessBatch, hempty, hm, hst]
      rw [hp]
      exact ⟨_, hfin _ batch rfl (fun j => rfl)⟩

/-- C1 witness: the finalizer theorem applied at a concrete one-task batch. -/
theorem claim_C1_witness :
    ∃ st : Status,
      (ProcessBatch ⟨[]⟩ engineConst c8signature [c8task1]).length = [c8task1].length ∧
      ∀ j, j < [c8task1].length →
        ∃ t0 t1, [c8task1][j]? = some t0 ∧
          (ProcessBatch ⟨[]⟩ engineConst c8signature [c8task1])[j]? = some t1 ∧
          t1.status = some st ∧ t1.doneCount = t0.doneCount + 1 :=
  claim_C1_processBatchFinalizer ⟨[]⟩ engineConst c8signature [c8task1] (by decide)

/-! ## Claim C2 -/

theorem splitRows_length (rs : List Row) (sizes : List Nat) :
    (splitRows rs sizes).length = sizes.length := by
  induction sizes generalizing rs with
  | nil => rfl
  | cons n ns ih => simp [splitRows, ih]

theorem tensorSplit_length (t : Tensor) (sizes : List Nat) :
    (tensorSplit t sizes).length = sizes.length := by
  simp [tensorSplit, splitRows_length]

theorem splitRows_lengths (rs : List Row) (sizes : List Nat)
    (h : rs.length = sizes.sum) :
    (splitRows rs sizes).map List.length = sizes := by
  induction sizes generalizing rs with
  | nil => rfl
  | cons n ns ih =>
    have h1 : n ≤ rs.length := by
      rw [h, List.sum_cons]
      omega
    simp only [splitRows, List.map_cons]
    congr 1
    · rw [List.length_take]
      omega
    · apply ih
      rw [List.length_drop, h, List.sum_cons]
      omega

theorem splitMapFind_insert (m : SplitMap) (name : String) (ts : List Tensor) (k : String) :
    splitMapFind (splitMapInsert m name ts) k =
      if name = k then some ts else splitMapFind m k := by
  induction m with
  | nil =>
    by_cases h : name = k
    · simp [splitMapInsert, splitMapFind, h]
    · simp [splitMapInsert, splitMapFind, h]
  | cons p rest ih =>
    by_cases h1 : p.1 = name
    · have hstep : splitMapInsert (p :: rest) name ts = (name, ts) :: rest := by
        simp [splitMapInsert, h1]
      rw [hstep]
      by_cases h2 : name = k
      · simp [splitMapFind, h2]
      · have h3 : ¬ p.1 = k := fun hh => h2 (h1.symm.trans hh)
        simp [splitMapFind, h2, h3]
    · have hstep : splitMapInsert (p :: rest) name ts = p :: splitMapInsert rest name ts := by
        simp [splitMapInsert, h1]
      rw [hstep]
      by_cases h3 : p.1 = k
      · have h2 : ¬ name = k := fun hh => h1 (h3.trans hh.symm)
        simp [splitMapFind, h3, h2]
      · simp [splitMapFind, h3, ih]

/-- Association lookup in the name-tensor pairing (map semantics of the
`split_tensors` construction, keyed by the pairing order). -/
def assocFindTensor : List (String × Tensor) → String → Option Tensor
  | [], _ => none
  | p :: rest, k => if p.1 = k then some p.2 else assocFindTensor rest k

theorem assocFindTensor_eq_none (pairs : List (String × Tensor)) (k : String)
    (h : k ∉ pairs.map Prod.fst) : assocFindTensor pairs k = none := by
  induction pairs with
  | nil => rfl
  | cons p rest ih =>
    rw [List.map_cons] at h
    have h1 : ¬ p.1 = k := fun hh => h (hh ▸ List.mem_cons_self _ _)
    simp only [assocFindTensor, h1, if_false]
    exact ih (fun hmem => h (List.mem_cons_of_mem _ hmem))

theorem assocFindTensor_isSome (pairs : List (String × Tensor)) (k : String)
    (h : k ∈ pairs.map Prod.fst) : ∃ t, assocFindTensor pairs k = some t := by
  induction pairs with
  | nil => cases h
  | cons p rest ih =>
    rw [List.map_cons] at h
    by_cases h1 : p.1 = k
    · exact ⟨p.2, by simp [assocFindTensor, h1]⟩
    · have h2 : k ∈ rest.map Prod.fst := by
        rcases List.mem_cons.mp h with hc | hc
        · exact absurd hc.symm h1
        · exact hc
      obtain ⟨t, ht⟩ := ih h2
      exact ⟨t, by simp [assocFindTensor, h1, ht]⟩

theorem assocFindTensor_mem (pairs : List (String × Tensor)) (k : String) (t : Tensor)
    (h : assocFindTensor pairs k = some t) : (k, t) ∈ pairs := by
  induction pairs with
  | nil => cases h
  | cons p rest ih =>
    by_cases h1 : p.1 = k
    · simp only [assocFindTensor, h1, if_true] at h
      have : p = (k, t) := by
        cases p
        simp only [Option.some.injEq] at h
        simp_all
      exact this ▸ List.mem_cons_self p rest
    · simp only [assocFindTensor, h1, if_false] at h
      exact List.mem_cons_of_mem p (ih h)

theorem buildSplitTensors_ok (sizes : List Nat) (total : Nat)
    (pairs : List (String × Tensor)) (m : SplitMap)
    (hnodup : (pairs.map Prod.fst).Nodup)
    (h : ∀ p ∈ pairs, p.2.dims ≠ 0 ∧ p.2.dim0 = total) :
    ∃ m2, buildSplitTensors sizes total pairs m = .ok m2 ∧
      ∀ k, splitMapFind m2 k =
        (match assocFindTensor pairs k with
         | some t => some (tensorSplit t sizes)
         | none => splitMapFind m k) := by
  induction pairs generalizing m with
  | nil => exact ⟨m, rfl, fun k => rfl⟩
  | cons p rest ih =>
    obtain ⟨h1, h2⟩ := h p (List.mem_cons_self p rest)
    have hnd : (rest.map Prod.fst).Nodup := (List.nodup_cons.mp (by simpa using hnodup)).2
    have hhead : p.1 ∉ rest.map Prod.fst := (List.nodup_cons.mp (by simpa using hnodup)).1
    obtain ⟨m2, hm2, hfind⟩ := ih (splitMapInsert m p.1 (tensorSplit p.2 sizes)) hnd
      (fun q hq => h q (List.mem_cons_of_mem p hq))
    refine ⟨m2, ?_, ?_⟩
    · cases p with
      | mk name tensor =>
        simp only [buildSplitTensors] at hm2 ⊢
        simp only at h1 h2
        simp [h1, h2, tensorSplit_length, hm2]
    · intro k
      rw [hfind k]
      by_cases hk : p.1 = k
      · have hrest : assocFindTensor rest k = none :=
          assocFindTensor_eq_none rest k (hk ▸ hhead)
        simp [assocFindTensor, hk, hrest, splitMapFind_insert]
      · cases hr : assocFindTensor rest k with
        | some t => simp [assocFindTensor, hk, hr]
        | none => simp [assocFindTensor, hk, hr, splitMapFind_insert]

/-- Append a list of delivered output tensors to a task's `outputs` vector. -/
def withOutputs (t : BatchingSessionTask) (extra : List Tensor) : BatchingSessionTask :=
  { t with outputs := t.outputs ++ extra }

theorem assignNames_ok (m : SplitMap) (i : Nat) (names : List String)
    (t : BatchingSessionTask) (v : String → List Tensor)
    (h : ∀ n ∈ names, splitMapFind m n = some (v n)) :
    assignNames m i names t =
      (Status.ok, withOutputs t (names.map (fun n => (v n).getD i (Tensor.batched [])))) := by
  induction names generalizing t with
  | nil => simp [assignNames, withOutputs]
  | cons n ns ih =>
    have hf := h n (List.mem_cons_self n ns)
    have hrec := ih (withOutputs t [(v n).getD i (Tensor.batched [])])
      (fun q hq => h q (List.mem_cons_of_mem n hq))
    simp only [assignNames, hf]
    refine hrec.trans ?_
    simp [withOutputs]

theorem assignAllTasks_ok (m : SplitMap) (batch : List BatchingSessionTask) (i : Nat)
    (v : String → List Tensor)
    (h : ∀ t ∈ batch, ∀ n ∈ t.output_tensor_names, splitMapFind m n = some (v n)) :
    (assignAllTasks m i batch).1 = Status.ok ∧
    (assignAllTasks m i batch).2.length = batch.length ∧
    ∀ j : Nat, (assignAllTasks m i batch).2[j]? =
      (batch[j]?).map (fun t =>
        withOutputs t (t.output_tensor_names.map
          (fun n => (v n).getD (i + j) (Tensor.batched [])))) := by
  induction batch generalizing i with
  | nil => exact ⟨rfl, rfl, fun j => rfl⟩
  | cons t ts ih =>
    have hone := assignNames_ok m i t.output_tensor_names t v
      (h t (List.mem_cons_self t ts))
    obtain ⟨ih1, ih2, ih3⟩ := ih (i + 1) (fun q hq => h q (List.mem_cons_of_mem t hq))
    have hstep : assignAllTasks m i (t :: ts) =
        ((assignAllTasks m (i + 1) ts).1,
          withOutputs t (t.output_tensor_names.map
            (fun n => (v n).getD i (Tensor.batched []))) ::
          (assignAllTasks m (i + 1) ts).2) := by
      simp [assignAllTasks, hone]
    rw [hstep]
    refine ⟨ih1, by simp [ih2], ?_⟩
    intro j
    cases j with
    | zero => simp
    | succ k =>
      have := ih3 k
      simpa [Nat.add_assoc, Nat.add_comm 1 k] using this

/-- The per-name split of the combined outputs: the tensor paired with `n` in
the signature-order pairing, split by `sizes` (empty if `n` is unpaired). -/
def splitFor (signature : TensorSignature) (combined_outputs : List Tensor)
    (sizes : List Nat) (n : String) : List Tensor :=
  match assocFindTensor (splitPairing signature combined_outputs) n with
  | some t => tensorSplit t sizes
  | none => []

theorem taskSizes_sum (options : BatchingSessionOptions)
    (batch : List BatchingSessionTask) :
    (taskSizesPlusOptionalPadding options batch).sum =
      batchSize batch + paddingSize options batch := by
  unfold taskSizesPlusOptionalPadding
  by_cases h : 0 < paddingSize options batch
  · simp only [h, if_true]
    rw [List.sum_append]
    simp [batchSize]
  · simp only [h, if_false]
    have : paddingSize options batch = 0 := by omega
    simp [batchSize, this]

theorem taskSizes_length (options : BatchingSessionOptions)
    (batch : List BatchingSessionTask) :
    batch.length ≤ (taskSizesPlusOptionalPadding options batch).length := by
  unfold taskSizesPlusOptionalPadding
  by_cases h : 0 < paddingSize options batch
  · simp [h]
  · simp [h]

theorem taskSizes_get (options : BatchingSessionOptions)
    (batch : List BatchingSessionTask) (j : Nat) (hj : j < batch.length) :
    (taskSizesPlusOptionalPadding options batch)[j]? =
      (batch[j]?).map (fun t => t.zeroth_dim_size) := by
  unfold taskSizesPlusOptionalPadding
  by_cases h : 0 < paddingSize options batch
  · simp only [h, if_true]
    rw [List.getElem?_append_left (by simpa using hj)]
    simp [List.getElem?_map]
  · simp only [h, if_false]
    simp [List.getElem?_map]

/-- C2: for every successful batched execution (well-formed combined outputs
over a non-empty batch whose requested names are all in the signature),
`SplitOutputTensors` succeeds and appends to task `t_j`'s outputs, for each
index `k`, the `j`-th part of splitting the combined tensor named
`t_j.output_tensor_names[k]` by the per-task sizes list (plus optional
padding) — so outputs correspond index-wise to the requested names — and
each delivered part has the task's own axis-0 size, so the padding slice
(the part at index `num_tasks`) is never delivered to any task. -/
theorem claim_C2_splitOutputTensors (options : BatchingSessionOptions)
    (signature : TensorSignature) (combined_outputs : List Tensor)
    (batch : List BatchingSessionTask)
    (hne : batch ≠ [])
    (hnodup : signature.output_tensors.Nodup)
    (hlen : combined_outputs.length = signature.output_tensors.length)
    (hcomb : ∀ t ∈ combined_outputs, t.dims ≠ 0 ∧
      t.dim0 = batchSize batch + paddingSize options batch)
    (hreq : ∀ t ∈ batch, ∀ n ∈ t.output_tensor_names, n ∈ signature.output_tensors) :
    (SplitOutputTensors options signature combined_outputs batch).1 = Status.ok ∧
    (SplitOutputTensors options signature combined_outputs batch).2.length = batch.length ∧
    (∀ j : Nat, (SplitOutputTensors options signature combined_outputs batch).2[j]? =
      (batch[j]?).map (fun t =>
        withOutputs t (t.output_tensor_names.map (fun n =>
          (splitFor signature combined_outputs
            (taskSizesPlusOptionalPadding options batch) n).getD j (Tensor.batched []))))) ∧
    (∀ j : Nat, j < batch.length → ∀ t0, batch[j]? = some t0 →
      ∀ n ∈ t0.output_tensor_names,
        ((splitFor signature combined_outputs
          (taskSizesPlusOptionalPadding options batch) n).getD j (Tensor.batched [])).dim0 =
        t0.zeroth_dim_size) := by
  have h1 : ¬ (batch.length < 1) := by
    cases batch with
    | nil => exact absurd rfl hne
    | cons t ts => simp
  have hpairsnames : (splitPairing signature combined_outputs).map Prod.fst =
      signature.output_tensors :=
    List.map_fst_zip signature.output_tensors combined_outputs (le_of_eq hlen.symm)
  have hpnodup : ((splitPairing signature combined_outputs).map Prod.fst).Nodup := by
    rw [hpairsnames]; exact hnodup
  have hpairsh : ∀ p ∈ splitPairing signature combined_outputs,
      p.2.dims ≠ 0 ∧ p.2.dim0 = batchSize batch + paddingSize options batch := by
    intro p hp
    have hp2 : p ∈ signature.output_tensors.zip combined_outputs := by
      simpa [splitPairing] using hp
    refine hcomb p.2 ?_
    cases p with
    | mk a b => exact (List.of_mem_zip hp2).2
  obtain ⟨m2, hm2, hfind⟩ := buildSplitTensors_ok
    (taskSizesPlusOptionalPadding options batch)
    (batchSize batch + paddingSize options batch)
    (splitPairing signature combined_outputs) [] hpnodup hpairsh
  have hv : ∀ t ∈ batch, ∀ n ∈ t.output_tensor_names,
      splitMapFind m2 n = some (splitFor signature combined_outputs
        (taskSizesPlusOptionalPadding options batch) n) := by
    intro t ht n hn
    have hnO : n ∈ signature.output_tensors := hreq t ht n hn
    have hnp : n ∈ (splitPairing signature combined_outputs).map Prod.fst := by
      rw [hpairsnames]; exact hnO
    obtain ⟨tn, htn⟩ := assocFindTensor_isSome (splitPairing signature combined_outputs) n hnp
    rw [hfind n, htn]
    simp [splitFor, htn]
  obtain ⟨ha1, ha2, ha3⟩ := assignAllTasks_ok m2 batch 0
    (fun n => splitFor signature combined_outputs
      (taskSizesPlusOptionalPadding options batch) n) hv
  have hsplit_eq : SplitOutputTensors options signature combined_outputs batch =
      assignAllTasks m2 0 batch := by
    simp [SplitOutputTensors, h1, hlen, hm2]
  refine ⟨?_, ?_, ?_, ?_⟩
  · rw [hsplit_eq]; exact ha1
  · rw [hsplit_eq]; exact ha2
  · intro j
    rw [hsplit_eq]
    simpa using ha3 j
  · intro j hj t0 ht0 n hn
    have ht0mem : t0 ∈ batch := List.getElem?_mem ht0
    have hnO : n ∈ signature.output_tensors := hreq t0 ht0mem n hn
    have hnp : n ∈ (splitPairing signature combined_outputs).map Prod.fst := by
      rw [hpairsnames]; exact hnO
    obtain ⟨tn, htn⟩ := assocFindTensor_isSome (splitPairing signature combined_outputs) n hnp
    have htnmem : (n, tn) ∈ splitPairing signature combined_outputs :=
      assocFindTensor_mem _ n tn htn
    have htcomb : tn ∈ combined_outputs := (List.of_mem_zip htnmem).2
    have hrows : tn.rows.length = (taskSizesPlusOptionalPadding options batch).sum := by
      rw [taskSizes_sum]
      exact (hcomb tn htcomb).2
    have hlens := splitRows_lengths tn.rows (taskSizesPlusOptionalPadding options batch) hrows
    have hjs : j < (taskSizesPlusOptionalPadding options batch).length :=
      lt_of_lt_of_le hj (taskSizes_length options batch)
    have hjc : j < (splitRows tn.rows (taskSizesPlusOptionalPadding options batch)).length := by
      rw [splitRows_length]; exact hjs
    have hchunklen : (splitRows tn.rows (taskSizesPlusOptionalPadding options batch))[j].length =
        t0.zeroth_dim_size := by
      have hcong := congrArg (fun l => l[j]?) hlens
      simp only [List.getElem?_map] at hcong
      rw [List.getElem?_eq_getElem hjc] at hcong
      rw [taskSizes_get options batch j hj, ht0] at hcong
      simpa using hcong
    have hsf : splitFor signature combined_outputs
        (taskSizesPlusOptionalPadding options batch) n =
        tensorSplit tn (taskSizesPlusOptionalPadding options batch) := by
      simp [splitFor, htn]
    rw [hsf]
    have hget : (tensorSplit tn (taskSizesPlusOptionalPadding options batch)).getD j
        (Tensor.batched []) =
        Tensor.batched ((splitRows tn.rows (taskSizesPlusOptionalPadding options batch))[j]) := by
      rw [List.getD_eq_getElem?_getD]
      unfold tensorSplit
      rw [List.getElem?_map, List.getElem?_eq_getElem hjc]
      rfl
    rw [hget]
    simpa [Tensor.dim0, Tensor.rows] using hchunklen

/-- C2 witness: the split theorem applied at a concrete signature, combined
output and two-task batch with padding. -/
theorem claim_C2_witness :
    (SplitOutputTensors ⟨[4]⟩ ⟨["x"], ["y"]⟩ [Tensor.batched [[1], [2], [3], [9]]]
      [c8task1, c8task2]).1 = Status.ok :=
  (claim_C2_splitOutputTensors ⟨[4]⟩ ⟨["x"], ["y"]⟩ [Tensor.batched [[1], [2], [3], [9]]]
    [c8task1, c8task2] (by decide) (by decide) (by decide) (by decide)
    (by decide)).1

/-! ## Claim C3 -/

/-- The tensor list accumulated under key `n` in the merge map (empty when
the key is absent). -/
def mergeVec (m : MergeMap) (n : String) : List Tensor :=
  (mergeFind m n).getD []

theorem mergeVec_add (m : MergeMap) (n : String) (t : Tensor) (k : String) :
    mergeVec (mergeAdd m n t) k = mergeVec m k ++ (if n = k then [t] else []) := by
  induction m with
  | nil =>
    by_cases h : n = k
    · simp [mergeAdd, mergeFind, mergeVec, h]
    · simp [mergeAdd, mergeFind, mergeVec, h]
  | cons p rest ih =>
    by_cases h1 : p.1 = n
    · have hstep : mergeAdd (p :: rest) n t = (p.1, p.2 ++ [t]) :: rest := by
        simp [mergeAdd, h1]
      rw [hstep]
      by_cases h2 : n = k
      · have h3 : p.1 = k := h1.trans h2
        simp [mergeVec, mergeFind, h3, h2]
      · have h3 : ¬ p.1 = k := fun hh => h2 (h1.symm.trans hh)
        simp [mergeVec, mergeFind, h3, h2]
    · have hstep : mergeAdd (p :: rest) n t = p :: mergeAdd rest n t := by
        simp [mergeAdd, h1]
      rw [hstep]
      by_cases h3 : p.1 = k
      · have h2 : ¬ n = k := fun hh => h1 (by rw [h3, ← hh])
        simp [mergeVec, mergeFind, h3, h2]
      · simp only [mergeVec, mergeFind, h3, if_false]
        exact ih

theorem mergeVec_addMany (m : MergeMap) (n : String) (ts : List Tensor) (k : String) :
    mergeVec (mergeAddMany m n ts) k = mergeVec m k ++ (if n = k then ts else []) := by
  induction ts generalizing m with
  | nil => simp [mergeAddMany]
  | cons t rest ih =>
    have hstep : mergeAddMany m n (t :: rest) = mergeAddMany (mergeAdd m n t) n rest := rfl
    rw [hstep, ih, mergeVec_add]
    by_cases h : n = k
    · simp [h]
    · simp [h]

/-- The tensors one `(name, tensor)` entry contributes under key `k`: the
tensor itself and, for the last task when padding is positive, the padding
slices pushed right after it. -/
def entryContrib (pad : Nat) (isLast : Bool) (k : String) (entry : String × Tensor) :
    List Tensor :=
  if entry.1 = k then
    [entry.2] ++
      (if isLast = true ∧ 0 < pad then List.replicate pad (entry.2.Slice 0 1) else [])
  else []

theorem mergeVec_taskEntry (pad : Nat) (isLast : Bool) (m : MergeMap)
    (entry : String × Tensor) (k : String) :
    mergeVec (mergeTaskEntry pad isLast m entry) k =
      mergeVec m k ++ entryContrib pad isLast k entry := by
  unfold mergeTaskEntry entryContrib
  by_cases hc : isLast = true ∧ 0 < pad
  · rw [if_pos hc, mergeVec_addMany, mergeVec_add]
    by_cases h : entry.1 = k
    · simp [h, hc]
    · simp [h]
  · rw [if_neg hc, mergeVec_add]
    by_cases h : entry.1 = k
    · simp [h, hc]
    · simp [h]

/-- The tensors one task contributes under key `k`. -/
def taskContrib (pad : Nat) (isLast : Bool) (k : String)
    (inputs : List (String × Tensor)) : List Tensor :=
  (inputs.map (entryContrib pad isLast k)).flatten

theorem mergeVec_foldl (pad : Nat) (isLast : Bool) (inputs : List (String × Tensor))
    (m : MergeMap) (k : String) :
    mergeVec (inputs.foldl (mergeTaskEntry pad isLast) m) k =
      mergeVec m k ++ taskContrib pad isLast k inputs := by
  induction inputs generalizing m with
  | nil => simp [taskContrib]
  | cons p rest ih =>
    simp only [List.foldl_cons, taskContrib, List.map_cons, List.flatten_cons]
    rw [ih, mergeVec_taskEntry]
    simp [taskContrib, List.append_assoc]

/-- The tensors the whole batch loop accumulates under key `k` (non-last
tasks without padding, the last task with it). -/
def batchContrib (pad : Nat) (k : String) : List BatchingSessionTask → List Tensor
  | [] => []
  | [t] => taskContrib pad true k t.inputs
  | t :: t2 :: rest => taskContrib pad false k t.inputs ++ batchContrib pad k (t2 :: rest)

theorem batchContrib_cons (pad : Nat) (k : String) (t : BatchingSessionTask)
    (l : List BatchingSessionTask) (h : l ≠ []) :
    batchContrib pad k (t :: l) = taskContrib pad false k t.inputs ++ batchContrib pad k l := by
  cases l with
  | nil => exact absurd rfl h
  | cons a b => rfl

theorem mergeVec_tasks (pad : Nat) (batch : List BatchingSessionTask)
    (m : MergeMap) (k : String) :
    mergeVec (mergeTasks pad m batch) k = mergeVec m k ++ batchContrib pad k batch := by
  induction batch generalizing m with
  | nil => simp [mergeTasks, batchContrib]
  | cons t rest ih =>
    cases rest with
    | nil =>
      show mergeVec (t.inputs.foldl (mergeTaskEntry pad true) m) k = _
      rw [mergeVec_foldl]
      rfl
    | cons t2 ts =>
      show mergeVec (mergeTasks pad (t.inputs.foldl (mergeTaskEntry pad false) m) (t2 :: ts)) k = _
      rw [ih, mergeVec_foldl, batchContrib_cons pad k t (t2 :: ts) (by simp)]
      simp [List.append_assoc]

theorem tensorConcat_eq (l : List Tensor) :
    tensorConcat l = Tensor.batched ((l.map Tensor.rows).flatten) := by
  unfold tensorConcat
  congr 1
  induction l with
  | nil => rfl
  | cons t rest ih => simp [ih]

theorem mergeOutput_ok (names : List String) (m : MergeMap) (v : String → List Tensor)
    (h : ∀ n ∈ names, mergeFind m n = some (v n)) :
    mergeOutput names m = .ok (names.map (fun n => (n, tensorConcat (v n)))) := by
  induction names with
  | nil => rfl
  | cons n ns ih =>
    have hf := h n (List.mem_cons_self n ns)
    have hrec := ih (fun q hq => h q (List.mem_cons_of_mem n hq))
    simp [mergeOutput, hf, hrec]

theorem taskContrib_not_mem (pad : Nat) (isLast : Bool) (k : String)
    (inputs : List (String × Tensor)) (h : k ∉ inputs.map Prod.fst) :
    taskContrib pad isLast k inputs = [] := by
  induction inputs with
  | nil => rfl
  | cons p rest ih =>
    rw [List.map_cons] at h
    have h1 : ¬ p.1 = k := fun hh => h (hh ▸ List.mem_cons_self _ _)
    have h2 := ih (fun hmem => h (List.mem_cons_of_mem _ hmem))
    simp only [taskContrib, List.map_cons, List.flatten_cons] at h2 ⊢
    simp [entryContrib, h1, h2]

theorem taskContrib_single (pad : Nat) (isLast : Bool) (k : String)
    (inputs : List (String × Tensor)) (T : Tensor)
    (hcount : (inputs.map Prod.fst).count k = 1)
    (hT : ∀ p ∈ inputs, p.1 = k → p.2 = T) :
    taskContrib pad isLast k inputs =
      [T] ++ (if isLast = true ∧ 0 < pad then List.replicate pad (T.Slice 0 1) else []) := by
  induction inputs with
  | nil => simp at hcount
  | cons p rest ih =>
    rw [List.map_cons, List.count_cons] at hcount
    by_cases h : p.1 = k
    · have hcr : (rest.map Prod.fst).count k = 0 := by
        simp only [h, beq_self_eq_true, if_true] at hcount
        omega
      have hrest0 : taskContrib pad isLast k rest = [] :=
        taskContrib_not_mem pad isLast k rest (List.count_eq_zero.mp hcr)
      have hpT := hT p (List.mem_cons_self p rest) h
      simp only [taskContrib, List.map_cons, List.flatten_cons] at hrest0 ⊢
      simp [entryContrib, h, hpT, hrest0]
    · have hcr : (rest.map Prod.fst).count k = 1 := by
        simp only [beq_iff_eq, h, if_false] at hcount
        omega
      have := ih hcr (fun q hq => hT q (List.mem_cons_of_mem p hq))
      simp only [taskContrib, List.map_cons, List.flatten_cons] at this ⊢
      simp [entryContrib, h, this]

theorem batchContrib_form (pad : Nat) (k : String)
    (f : BatchingSessionTask → String → List Row)
    (ts : List BatchingSessionTask) (tl : BatchingSessionTask)
    (hform : ∀ t ∈ ts ++ [tl],
      (t.inputs.map Prod.fst).count k = 1 ∧
      ∀ p ∈ t.inputs, p.1 = k → p.2 = Tensor.batched (f t k)) :
    batchContrib pad k (ts ++ [tl]) =
      (ts ++ [tl]).map (fun t => Tensor.batched (f t k)) ++
        (if 0 < pad then
          List.replicate pad ((Tensor.batched (f tl k)).Slice 0 1) else []) := by
  induction ts with
  | nil =>
    obtain ⟨hc, hTl⟩ := hform tl (by simp)
    have := taskContrib_single pad true k tl.inputs (Tensor.batched (f tl k)) hc hTl
    simp only [List.nil_append]
    show taskContrib pad true k tl.inputs = _
    rw [this]
    simp
  | cons t rest ih =>
    obtain ⟨hc, hTt⟩ := hform t (by simp)
    rw [List.cons_append, batchContrib_cons pad k t (rest ++ [tl]) (by simp)]
    rw [taskContrib_single pad false k t.inputs (Tensor.batched (f t k)) hc hTt]
    rw [ih (fun q hq => hform q (by simp at hq ⊢; tauto))]
    simp [List.append_assoc]

/-- The rows of the merged tensor for input name `n`: every task's rows in
batch order, followed by `pad` copies of the one-row `Slice(0,1)` of the last
task's tensor for `n`. -/
def mergedRowsFor (pad : Nat) (f : BatchingSessionTask → String → List Row)
    (batch : List BatchingSessionTask) (tl : BatchingSessionTask) (n : String) : List Row :=
  (batch.map (fun t => f t n)).flatten ++ (List.replicate pad ((f tl n).take 1)).flatten

/-- C3: for every non-empty well-formed batch `ts ++ [tl]` (each task's input
names a permutation of the signature's input set, each tensor batched with
axis-0 size `zeroth_dim_size`, the last task non-empty), `MergeInputTensors`
produces exactly one merged tensor per signature input name, whose rows are
the tasks' rows in order followed by `padding_size` copies of the one-row
slice `Slice(0,1)` of the last task's tensor of the same name, and every
merged tensor's axis-0 size is `RoundToLowestAllowedBatchSize(batch.size())`. -/
theorem claim_C3_mergeInputTensors (options : BatchingSessionOptions)
    (signature : TensorSignature) (ts : List BatchingSessionTask)
    (tl : BatchingSessionTask) (f : BatchingSessionTask → String → List Row)
    (hnodup : signature.input_tensors.Nodup)
    (hform : ∀ t ∈ ts ++ [tl],
      (t.inputs.map Prod.fst).Perm signature.input_tensors ∧
      ∀ p ∈ t.inputs, p.2 = Tensor.batched (f t p.1) ∧ (f t p.1).length = t.zeroth_dim_size)
    (hlast : 0 < tl.zeroth_dim_size) :
    MergeInputTensors options signature (ts ++ [tl]) =
      .ok (signature.input_tensors.map (fun n =>
        (n, Tensor.batched (mergedRowsFor (paddingSize options (ts ++ [tl])) f
          (ts ++ [tl]) tl n)))) ∧
    ∀ n ∈ signature.input_tensors,
      (Tensor.batched (mergedRowsFor (paddingSize options (ts ++ [tl])) f
        (ts ++ [tl]) tl n)).dim0 =
      RoundToLowestAllowedBatchSize options (batchSize (ts ++ [tl])) := by
  have h1 : ¬ ((ts ++ [tl]).length < 1) := by simp
  have htlmem : tl ∈ ts ++ [tl] := by simp
  have hcount : ∀ n ∈ signature.input_tensors, ∀ t ∈ ts ++ [tl],
      (t.inputs.map Prod.fst).count n = 1 := by
    intro n hn t ht
    exact ((hform t ht).1.count_eq n).trans (List.count_eq_one_of_mem hnodup hn)
  have hTfun : ∀ n, ∀ t ∈ ts ++ [tl], ∀ p ∈ t.inputs, p.1 = n →
      p.2 = Tensor.batched (f t n) := by
    intro n t ht p hp hpn
    have h2 := ((hform t ht).2 p hp).1
    rw [hpn] at h2
    exact h2
  have hflen : ∀ n ∈ signature.input_tensors, ∀ t ∈ ts ++ [tl],
      (f t n).length = t.zeroth_dim_size := by
    intro n hn t ht
    have hmemn : n ∈ t.inputs.map Prod.fst := ((hform t ht).1.mem_iff).mpr hn
    obtain ⟨p, hp, hpn⟩ := List.mem_map.mp hmemn
    have := ((hform t ht).2 p hp).2
    rw [hpn] at this
    exact this
  have hvec : ∀ n, mergeVec (mergeTasks (paddingSize options (ts ++ [tl])) [] (ts ++ [tl])) n =
      batchContrib (paddingSize options (ts ++ [tl])) n (ts ++ [tl]) := by
    intro n
    rw [mergeVec_tasks]
    simp [mergeVec, mergeFind]
  have hbc : ∀ n ∈ signature.input_tensors,
      batchContrib (paddingSize options (ts ++ [tl])) n (ts ++ [tl]) =
        (ts ++ [tl]).map (fun t => Tensor.batched (f t n)) ++
          (if 0 < paddingSize options (ts ++ [tl]) then
            List.replicate (paddingSize options (ts ++ [tl]))
              ((Tensor.batched (f tl n)).Slice 0 1) else []) := by
    intro n hn
    exact batchContrib_form _ n f ts tl
      (fun t ht => ⟨hcount n hn t ht, hTfun n t ht⟩)
  have hkeymem : ∀ k, k ∈ mergeKeys (mergeTasks (paddingSize options (ts ++ [tl])) []
      (ts ++ [tl])) ↔ k ∈ signature.input_tensors := by
    intro k
    rw [mergeKeys_tasks_mem]
    simp only [mergeKeys, List.map_nil, List.not_mem_nil, false_or]
    constructor
    · intro ⟨t, ht, hkt⟩
      exact ((hform t ht).1.mem_iff).mp hkt
    · intro hk
      exact ⟨tl, htlmem, ((hform tl htlmem).1.mem_iff).mpr hk⟩
  have hknd : (mergeKeys (mergeTasks (paddingSize options (ts ++ [tl])) []
      (ts ++ [tl]))).Nodup :=
    mergeKeys_tasks_nodup _ _ _ (by simp [mergeKeys])
  have hkperm : (mergeKeys (mergeTasks (paddingSize options (ts ++ [tl])) []
      (ts ++ [tl]))).Perm signature.input_tensors :=
    (List.perm_ext_iff_of_nodup hknd hnodup).mpr hkeymem
  have hlen : (mergeTasks (paddingSize options (ts ++ [tl])) [] (ts ++ [tl])).length =
      signature.input_tensors.length := by
    have := hkperm.length_eq
    rw [← this]
    exact (List.length_map _ _).symm
  have hfindv : ∀ n ∈ signature.input_tensors,
      mergeFind (mergeTasks (paddingSize options (ts ++ [tl])) [] (ts ++ [tl])) n =
        some (mergeVec (mergeTasks (paddingSize options (ts ++ [tl])) [] (ts ++ [tl])) n) := by
    intro n hn
    obtain ⟨v, hv⟩ := mergeFind_of_mem _ n ((hkeymem n).mpr hn)
    rw [hv]
    simp [mergeVec, hv]
  have hout := mergeOutput_ok signature.input_tensors
    (mergeTasks (paddingSize options (ts ++ [tl])) [] (ts ++ [tl]))
    (fun n => mergeVec (mergeTasks (paddingSize options (ts ++ [tl])) [] (ts ++ [tl])) n)
    hfindv
  have hmapeq : signature.input_tensors.map (fun n =>
      (n, tensorConcat (mergeVec (mergeTasks (paddingSize options (ts ++ [tl])) []
        (ts ++ [tl])) n))) =
      signature.input_tensors.map (fun n =>
        (n, Tensor.batched (mergedRowsFor (paddingSize options (ts ++ [tl])) f
          (ts ++ [tl]) tl n))) := by
    apply List.map_congr_left
    intro n hn
    rw [hvec n, hbc n hn, tensorConcat_eq]
    unfold mergedRowsFor
    have hcomp : (Tensor.rows ∘ fun t => Tensor.batched (f t n)) = (fun t => f t n) := rfl
    by_cases hp : 0 < paddingSize options (ts ++ [tl])
    · simp [hp, Tensor.Slice, Tensor.rows, List.map_append, List.flatten_append,
        List.map_map, List.map_replicate, hcomp]
    · have h0 : paddingSize options (ts ++ [tl]) = 0 := by omega
      simp [h0, List.map_append, List.flatten_append, List.map_map, hcomp, Tensor.rows]
  refine ⟨?_, ?_⟩
  · have hmerge_eq : MergeInputTensors options signature (ts ++ [tl]) =
        mergeOutput signature.input_tensors
          (mergeTasks (paddingSize options (ts ++ [tl])) [] (ts ++ [tl])) := by
      simp [MergeInputTensors, h1, hlen]
    rw [hmerge_eq, hout, hmapeq]
  · intro n hn
    show (mergedRowsFor (paddingSize options (ts ++ [tl])) f (ts ++ [tl]) tl n).length = _
    unfold mergedRowsFor
    rw [List.length_append, List.length_flatten, List.length_flatten]
    have hmapl : ((ts ++ [tl]).map (fun t => f t n)).map List.length =
        (ts ++ [tl]).map (fun t => t.zeroth_dim_size) := by
      rw [List.map_map]
      apply List.map_congr_left
      intro t ht
      exact hflen n hn t ht
    rw [hmapl]
    have hpadl : (List.replicate (paddingSize options (ts ++ [tl]))
        ((f tl n).take 1)).map List.length =
        List.replicate (paddingSize options (ts ++ [tl])) 1 := by
      rw [List.map_replicate]
      congr 1
      rw [List.length_take]
      have := hflen n hn tl htlmem
      omega
    rw [hpadl, List.sum_replicate, smul_eq_mul, mul_one]
    show batchSize (ts ++ [tl]) + paddingSize options (ts ++ [tl]) = _
    have hge := roundGe options (batchSize (ts ++ [tl]))
    unfold paddingSize
    omega

/-- C3 witness task: a single task with a 3-row `"x"` tensor. -/
def c3task : BatchingSessionTask :=
  { zeroth_dim_size := 3, inputs := [("x", Tensor.batched [[1], [2], [3]])],
    output_tensor_names := ["y"], outputs := [], status := none, doneCount := 0 }

/-- C3 witness row function: the rows of the single task's only tensor. -/
def c3f : BatchingSessionTask → String → List Row := fun _ _ => [[1], [2], [3]]

/-- C3 witness: the merge theorem applied at a concrete one-task batch padded
from 3 rows up to the allowed batch size 4. -/
theorem claim_C3_witness :
    MergeInputTensors ⟨[4]⟩ ⟨["x"], ["y"]⟩ ([] ++ [c3task]) =
      .ok ((⟨["x"], ["y"]⟩ : TensorSignature).input_tensors.map (fun n =>
        (n, Tensor.batched (mergedRowsFor (paddingSize ⟨[4]⟩ ([] ++ [c3task])) c3f
          ([] ++ [c3task]) c3task n)))) :=
  (claim_C3_mergeInputTensors ⟨[4]⟩ ⟨["x"], ["y"]⟩ [] c3task c3f (by decide)
    (by decide) (by decide)).1
